import Mathlib

/-!
Verification development for the `thai2transformers` repository
(`src/thai2transformers/tokenizers.py` and `src/scripts/seq_cls_finetune.py`).

The Python code is shallowly embedded: Python dicts and `collections.Counter`
objects are modelled as ordered association lists `List (String × Nat)` (this
matches CPython, whose dicts preserve insertion order), raising an exception is
modelled by returning `Except PyErr`, and text is modelled at the level of
Unicode code points (`Char`), which is what Python string indexing, `len` and
slicing operate on.
-/

namespace Thai2Transformers

/-- Python exception classes that the embedded code can raise. -/
inductive PyErr
  | attributeError
  | typeError
  | valueError
  | keyError
deriving DecidableEq

/-- An insertion-ordered Python dict / `collections.Counter` with `Nat` values,
modelled as an association list.  All code below maintains the invariant that
keys are pairwise distinct, as CPython dicts do. -/
abbrev PyDict := List (String × Nat)

/-- Python `d.get(k)` / `d[k]` lookup: the value at the first (in a real dict:
the only) entry whose key is `k`. -/
def pyDictGet? : PyDict → String → Option Nat
  | [], _ => none
  | kv :: rest, k => if kv.1 = k then some kv.2 else pyDictGet? rest k

/-- Python `d.get(k, default)`, and `Counter.__missing__` (which yields `0`). -/
def lookupD (d : PyDict) (k : String) (dflt : Nat) : Nat :=
  (pyDictGet? d k).getD dflt

/-- Python `k in d` membership test on a dict / Counter. -/
def hasKey (d : PyDict) (k : String) : Bool :=
  (pyDictGet? d k).isSome

/-- Python `d[k] = v`: overwrite the entry in place if the key is present
(keeping its position), otherwise append the new entry at the end. -/
def pyDictSet : PyDict → String → Nat → PyDict
  | [], k, v => [(k, v)]
  | kv :: rest, k, v => if kv.1 = k then (k, v) :: rest else kv :: pyDictSet rest k v

/-- Build a dict from a list of key-value pairs by successive `d[k] = v`
assignments, as a Python dict comprehension / `dict(...)` constructor does. -/
def mkPyDict (ps : List (String × Nat)) : PyDict :=
  ps.foldl (fun d kv => pyDictSet d kv.1 kv.2) []

/-- The keys of a dict, in order. -/
def keys (d : PyDict) : List String := d.map Prod.fst

/-- Well-formedness of an embedded `Counter`: keys are pairwise distinct (true
of every CPython dict) and every stored count is positive (true of every
counter built by counting elements of a list). -/
def CWF (c : PyDict) : Prop :=
  (keys c).Nodup ∧ ∀ kv ∈ c, 0 < kv.2

/- ### Basic lookup lemmas -/

theorem pyDictGet?_eq_none_of_forall_ne {d : PyDict} {k : String}
    (h : ∀ kv ∈ d, kv.1 ≠ k) : pyDictGet? d k = none := by
  induction d with
  | nil => rfl
  | cons kv rest ih =>
    simp only [pyDictGet?]
    rw [if_neg (h kv (by simp))]
    exact ih fun kv' h' => h kv' (by simp [h'])

theorem hasKey_of_mem {d : PyDict} {kv : String × Nat} (h : kv ∈ d) :
    hasKey d kv.1 = true := by
  induction d with
  | nil => simp at h
  | cons kv' rest ih =>
    rcases List.mem_cons.mp h with h | h
    · subst h; simp [hasKey, pyDictGet?]
    · simp only [hasKey, pyDictGet?]
      by_cases hk : kv'.1 = kv.1
      · simp [hk]
      · simpa [hk, hasKey] using ih h

theorem mem_keys_iff_hasKey {d : PyDict} {k : String} :
    k ∈ keys d ↔ hasKey d k = true := by
  induction d with
  | nil => simp [keys, hasKey, pyDictGet?]
  | cons kv rest ih =>
    by_cases hk : kv.1 = k
    · simp [keys, hasKey, pyDictGet?, hk]
    · simp only [keys, List.map_cons, List.mem_cons, hasKey, pyDictGet?, if_neg hk]
      constructor
      · rintro (h | h)
        · exact absurd h.symm hk
        · exact ih.mp h
      · intro h
        exact Or.inr (ih.mpr h)

theorem pyDictGet?_of_mem_nodup {d : PyDict} {kv : String × Nat}
    (hnd : (keys d).Nodup) (h : kv ∈ d) : pyDictGet? d kv.1 = some kv.2 := by
  induction d with
  | nil => simp at h
  | cons kv' rest ih =>
    rcases List.mem_cons.mp h with h | h
    · subst h; simp [pyDictGet?]
    · simp only [pyDictGet?]
      have hk : kv'.1 ≠ kv.1 := by
        intro he
        have : kv.1 ∈ keys rest := List.mem_map_of_mem Prod.fst h
        rw [← he] at this
        exact (List.nodup_cons.mp hnd).1 this
      rw [if_neg hk]
      exact ih (List.nodup_cons.mp hnd).2 h

theorem pyDictGet?_append (xs ys : PyDict) (k : String) :
    pyDictGet? (xs ++ ys) k =
      (match pyDictGet? xs k with
        | some v => some v
        | none => pyDictGet? ys k) := by
  induction xs with
  | nil => simp [pyDictGet?]
  | cons kv rest ih =>
    by_cases hk : kv.1 = k
    · simp [pyDictGet?, hk]
    · simp [pyDictGet?, hk, ih]

theorem pyDictGet?_mapValues (d : PyDict) (f : String → Nat → Nat) (k : String) :
    pyDictGet? (d.map (fun kv => (kv.1, f kv.1 kv.2))) k =
      (pyDictGet? d k).map (f k) := by
  induction d with
  | nil => simp [pyDictGet?]
  | cons kv rest ih =>
    by_cases hk : kv.1 = k
    · subst hk; simp [pyDictGet?]
    · simp [pyDictGet?, hk, ih]

theorem pyDictGet?_filter_of_imp {d : PyDict} {p : String × Nat → Bool} {k : String}
    (h : ∀ kv ∈ d, kv.1 = k → p kv = true) :
    pyDictGet? (d.filter p) k = pyDictGet? d k := by
  induction d with
  | nil => simp
  | cons kv rest ih =>
    by_cases hk : kv.1 = k
    · have := h kv (by simp) hk
      simp [List.filter_cons, this, pyDictGet?, hk]
    · rcases hp : p kv with _ | _
      · simp only [List.filter_cons, hp, cond_false, pyDictGet?, if_neg hk]
        exact ih fun kv' h' hk' => h kv' (by simp [h']) hk'
      · simp only [List.filter_cons, hp, cond_true, pyDictGet?, if_neg hk]
        exact ih fun kv' h' hk' => h kv' (by simp [h']) hk'

theorem pyDictSet_get_self (d : PyDict) (k : String) (v : Nat) :
    pyDictGet? (pyDictSet d k v) k = some v := by
  induction d with
  | nil => simp [pyDictSet, pyDictGet?]
  | cons kv rest ih =>
    by_cases hk : kv.1 = k
    · simp [pyDictSet, hk, pyDictGet?]
    · simp [pyDictSet, hk, pyDictGet?, ih]

theorem pyDictSet_get_ne (d : PyDict) (k : String) (v : Nat) {k' : String}
    (h : k' ≠ k) : pyDictGet? (pyDictSet d k v) k' = pyDictGet? d k' := by
  have hkk' : ¬ k = k' := fun he => h he.symm
  induction d with
  | nil =>
    simp only [pyDictSet, pyDictGet?]
    rw [if_neg hkk']
  | cons kv rest ih =>
    by_cases hk : kv.1 = k
    · have hkv : ¬ kv.1 = k' := by rw [hk]; exact hkk'
      simp only [pyDictSet, if_pos hk, pyDictGet?, if_neg hkk', if_neg hkv]
    · simp only [pyDictSet, if_neg hk, pyDictGet?, ih]

theorem pyDictSet_eq_append_of_not_hasKey {d : PyDict} {k : String} (v : Nat)
    (h : hasKey d k = false) : pyDictSet d k v = d ++ [(k, v)] := by
  induction d with
  | nil => simp [pyDictSet]
  | cons kv rest ih =>
    simp only [hasKey, pyDictGet?] at h
    by_cases hk : kv.1 = k
    · simp [hk] at h
    · rw [if_neg hk] at h
      simp [pyDictSet, hk, ih h]

theorem mkPyDict_eq_self {ps : List (String × Nat)} (hnd : (ps.map Prod.fst).Nodup) :
    mkPyDict ps = ps := by
  suffices h : ∀ (ps : List (String × Nat)) (acc : PyDict),
      ((acc ++ ps).map Prod.fst).Nodup →
      ps.foldl (fun d kv => pyDictSet d kv.1 kv.2) acc = acc ++ ps by
    simpa using h ps [] (by simpa using hnd)
  intro ps
  induction ps with
  | nil => intro acc _; simp
  | cons kv rest ih =>
    intro acc hacc
    have hnotin : hasKey acc kv.1 = false := by
      by_contra h
      have hmem : kv.1 ∈ keys acc :=
        mem_keys_iff_hasKey.mpr (by revert h; cases hasKey acc kv.1 <;> simp)
      have : ((acc ++ kv :: rest).map Prod.fst).Nodup := hacc
      rw [List.map_append] at this
      have hdisj := List.disjoint_of_nodup_append this
      exact hdisj hmem (by simp)
    simp only [List.foldl_cons]
    rw [pyDictSet_eq_append_of_not_hasKey kv.2 hnotin]
    have : ((acc ++ [kv] ++ rest).map Prod.fst).Nodup := by
      simpa using hacc
    rw [ih (acc ++ [kv]) this]
    simp

/- ### collections.Counter -/

/-- One step of CPython's `collections._count_elements`:
`mapping[elem] = mapping.get(elem, 0) + 1`.  The entry of the (unique) key
equal to `w` is incremented in place; a missing key is appended with count 1. -/
def counterInc : PyDict → String → PyDict
  | [], w => [(w, 1)]
  | kv :: rest, w => if kv.1 = w then (kv.1, kv.2 + 1) :: rest else kv :: counterInc rest w

/-- `collections.Counter(words)`: count every element of the list. -/
def mkCounter (ws : List String) : PyDict :=
  ws.foldl counterInc []

/-- `Counter.__add__` (CPython): for every entry of `self`, keep
`count + other[elem]` when positive; then append the entries of `other` whose
key is not in `self` and whose count is positive. -/
def counterSum (c1 c2 : PyDict) : PyDict :=
  (c1.filterMap fun kv =>
      if 0 < kv.2 + lookupD c2 kv.1 0 then some (kv.1, kv.2 + lookupD c2 kv.1 0) else none)
    ++ c2.filter fun kv => !hasKey c1 kv.1 && decide (0 < kv.2)

theorem counterInc_get (c : PyDict) (w k : String) :
    lookupD (counterInc c w) k 0 =
      lookupD c k 0 + (if w = k then 1 else 0) := by
  induction c with
  | nil =>
    by_cases hk : w = k
    · simp [counterInc, lookupD, pyDictGet?, hk]
    · simp [counterInc, lookupD, pyDictGet?, hk, fun he : w = k => hk he]
  | cons kv rest ih =>
    by_cases hw : kv.1 = w
    · by_cases hk : kv.1 = k
      · have : w = k := hw ▸ hk
        simp [counterInc, hw, lookupD, pyDictGet?, hk, this]
      · have hwk : ¬ w = k := fun he => hk (hw.trans he)
        simp [counterInc, hw, lookupD, pyDictGet?, hk, hwk]
    · by_cases hk : kv.1 = k
      · have hwk : ¬ w = k := fun he => hw (by rw [he, hk])
        simp only [counterInc]
        rw [if_neg hw]
        simp [lookupD, pyDictGet?, hk, hwk]
      · simp only [counterInc]
        rw [if_neg hw]
        simpa [lookupD, pyDictGet?, hk] using ih

theorem counterInc_keys (c : PyDict) (w : String) :
    keys (counterInc c w) =
      (if hasKey c w then keys c else keys c ++ [w]) := by
  induction c with
  | nil => simp [counterInc, keys, hasKey, pyDictGet?]
  | cons kv rest ih =>
    by_cases hw : kv.1 = w
    · simp [counterInc, hw, keys, hasKey, pyDictGet?]
    · have hhk : hasKey (kv :: rest) w = hasKey rest w := by
        simp [hasKey, pyDictGet?, hw]
      simp only [counterInc, if_neg hw, keys, List.map_cons, hhk]
      rw [show (counterInc rest w).map Prod.fst = keys (counterInc rest w) from rfl, ih]
      rcases h : hasKey rest w with _ | _ <;> simp [keys]

theorem counterInc_CWF {c : PyDict} (hc : CWF c) (w : String) :
    CWF (counterInc c w) := by
  constructor
  · rw [counterInc_keys]
    rcases h : hasKey c w with _ | _
    · have hw : w ∉ keys c := fun hmem => by
        rw [mem_keys_iff_hasKey.mp hmem] at h; cases h
      simp [List.nodup_append, hc.1, hw]
    · simpa using hc.1
  · intro kv hkv
    induction c with
    | nil =>
      simp only [counterInc, List.mem_singleton] at hkv
      simp [hkv]
    | cons kv' rest ih =>
      by_cases hw : kv'.1 = w
      · simp only [counterInc, if_pos hw, List.mem_cons] at hkv
        rcases hkv with h | h
        · subst h; simp
        · exact hc.2 kv (by simp [h])
      · simp only [counterInc, if_neg hw, List.mem_cons] at hkv
        rcases hkv with h | h
        · subst h; exact hc.2 kv (by simp)
        · exact ih ⟨(List.nodup_cons.mp hc.1).2,
            fun kv'' h'' => hc.2 kv'' (by simp [h''])⟩ h

theorem mkCounter_CWF (ws : List String) : CWF (mkCounter ws) := by
  suffices h : ∀ (ws : List String) (acc : PyDict), CWF acc →
      CWF (ws.foldl counterInc acc) by
    exact h ws [] ⟨List.nodup_nil, by simp⟩
  intro ws
  induction ws with
  | nil => intro acc hacc; exact hacc
  | cons w rest ih =>
    intro acc hacc
    exact ih (counterInc acc w) (counterInc_CWF hacc w)

theorem mkCounter_get (ws : List String) (k : String) :
    lookupD (mkCounter ws) k 0 = ws.count k := by
  suffices h : ∀ (ws : List String) (acc : PyDict),
      lookupD (ws.foldl counterInc acc) k 0 = lookupD acc k 0 + ws.count k by
    simpa [lookupD, pyDictGet?] using h ws []
  intro ws
  induction ws with
  | nil => intro acc; simp
  | cons w rest ih =>
    intro acc
    rw [List.foldl_cons, ih (counterInc acc w), counterInc_get]
    by_cases hw : w = k
    · subst hw
      simp [List.count_cons]
      omega
    · have : ¬ (k == w) = true := by simpa [beq_iff_eq] using fun he => hw he.symm
      simp [List.count_cons, hw, this]

theorem counterSum_filterMap_eq_map {c1 : PyDict} (c2 : PyDict)
    (h1 : ∀ kv ∈ c1, 0 < kv.2) :
    (c1.filterMap fun kv =>
        if 0 < kv.2 + lookupD c2 kv.1 0 then some (kv.1, kv.2 + lookupD c2 kv.1 0) else none)
      = c1.map fun kv => (kv.1, kv.2 + lookupD c2 kv.1 0) := by
  induction c1 with
  | nil => simp
  | cons kv rest ih =>
    have hpos : 0 < kv.2 + lookupD c2 kv.1 0 :=
      Nat.lt_of_lt_of_le (h1 kv (by simp)) (Nat.le_add_right _ _)
    simp only [List.filterMap_cons, if_pos hpos, List.map_cons]
    rw [ih fun kv' h' => h1 kv' (by simp [h'])]

theorem counterSum_get {c1 c2 : PyDict} (h1 : CWF c1) (h2 : CWF c2) (k : String) :
    lookupD (counterSum c1 c2) k 0 = lookupD c1 k 0 + lookupD c2 k 0 := by
  unfold counterSum
  rw [counterSum_filterMap_eq_map c2 h1.2]
  have hmap : pyDictGet? (c1.map fun kv => (kv.1, kv.2 + lookupD c2 kv.1 0)) k
      = (pyDictGet? c1 k).map (fun v => v + lookupD c2 k 0) :=
    pyDictGet?_mapValues c1 (fun k v => v + lookupD c2 k 0) k
  simp only [lookupD] at hmap
  rcases hg : pyDictGet? c1 k with _ | v
  · have hk : hasKey c1 k = false := by simp [hasKey, hg]
    have hfil : pyDictGet? (List.filter (fun kv => !hasKey c1 kv.1 && decide (0 < kv.2)) c2) k
        = pyDictGet? c2 k := by
      apply pyDictGet?_filter_of_imp
      intro kv hmem hke
      have hpos := h2.2 kv hmem
      rw [hke, hk]
      simp [hpos]
    simp only [lookupD, pyDictGet?_append, hmap, hg, Option.map_none', Option.getD_none]
    simp [hfil]
  · simp only [lookupD, pyDictGet?_append, hmap, hg, Option.map_some']
    simp

theorem counterSum_CWF {c1 c2 : PyDict} (h1 : CWF c1) (h2 : CWF c2) :
    CWF (counterSum c1 c2) := by
  unfold counterSum
  rw [counterSum_filterMap_eq_map c2 h1.2]
  constructor
  · rw [keys, List.map_append]
    refine List.nodup_append.mpr ⟨?_, ?_, ?_⟩
    · rw [show ((c1.map fun kv => (kv.1, kv.2 + lookupD c2 kv.1 0)).map Prod.fst)
            = c1.map Prod.fst by simp]
      exact h1.1
    · exact List.Nodup.sublist ((List.filter_sublist _).map Prod.fst) h2.1
    · intro a ha hb
      rw [show ((c1.map fun kv => (kv.1, kv.2 + lookupD c2 kv.1 0)).map Prod.fst)
            = c1.map Prod.fst by simp] at ha
      rcases List.mem_map.mp hb with ⟨kv, hkv, hfst⟩
      have hp := (List.mem_filter.mp hkv).2
      have hkey : hasKey c1 kv.1 = false := by
        rcases hh : hasKey c1 kv.1 with _ | _
        · rfl
        · rw [hh] at hp; simp at hp
      subst hfst
      have hmem : kv.1 ∈ keys c1 := ha
      rw [mem_keys_iff_hasKey.mp hmem] at hkey
      cases hkey
  · intro kv hkv
    rcases List.mem_append.mp hkv with h | h
    · rcases List.mem_map.mp h with ⟨kv', hkv', he⟩
      rw [← he]
      exact Nat.lt_of_lt_of_le (h1.2 kv' hkv') (Nat.le_add_right _ _)
    · have hp := (List.mem_filter.mp h).2
      simp only [Bool.and_eq_true, decide_eq_true_eq] at hp
      exact hp.2

/- ### Reading the corpus (`WordLevelTrainer.count_one`) -/

/-- Python `str.strip()`: remove leading and trailing whitespace code points. -/
def pyStrip (s : String) : String :=
  ⟨((s.data.dropWhile Char.isWhitespace).reverse.dropWhile Char.isWhitespace).reverse⟩

/-- Python `str.isspace()`: nonempty and consisting only of whitespace. -/
def pyIsSpace (s : String) : Bool :=
  !s.data.isEmpty && s.data.all Char.isWhitespace

/-- The guard `len(line) > 0 and not line.isspace()` of `count_one`, applied to
the stripped line. -/
def keepLine (line : String) : Bool :=
  decide (0 < line.length) && !pyIsSpace line

/-- The token stream produced from one input file (modelled as its list of
lines) by `WordLevelTrainer.count_one`: each line is stripped, blank lines are
skipped, and the word list is extended with the pre-tokenization of each
remaining line. -/
def fileWords (pre : String → List String) (file : List String) : List String :=
  ((file.map pyStrip).filter keepLine).flatMap pre

/-- `WordLevelTrainer.count_one`: the `Counter` of the file's token stream. -/
def count_one (pre : String → List String) (file : List String) : PyDict :=
  mkCounter (fileWords pre file)

/-- The token stream of the whole corpus, in file order; a token's count in
this list is its observed frequency in the corpus. -/
def allWords (pre : String → List String) (input_files : List (List String)) : List String :=
  input_files.flatMap (fileWords pre)

/-- `sum(counters, Counter())` over the per-file counters, as in
`count_parallel`. -/
def counterAll (pre : String → List String) (input_files : List (List String)) : PyDict :=
  (input_files.map (count_one pre)).foldl counterSum []

theorem CWF_nil : CWF ([] : PyDict) := ⟨List.nodup_nil, by simp⟩

theorem foldl_counterSum (l : List PyDict) (acc : PyDict) (hacc : CWF acc)
    (hl : ∀ c ∈ l, CWF c) :
    CWF (l.foldl counterSum acc) ∧
    ∀ k, lookupD (l.foldl counterSum acc) k 0
        = lookupD acc k 0 + (l.map fun c => lookupD c k 0).sum := by
  induction l generalizing acc with
  | nil => exact ⟨hacc, by simp⟩
  | cons c rest ih =>
    have hc := hl c (by simp)
    have hsum := counterSum_CWF hacc hc
    obtain ⟨hwf, hget⟩ := ih (counterSum acc c) hsum (fun c' h' => hl c' (by simp [h']))
    refine ⟨hwf, fun k => ?_⟩
    simp only [List.foldl_cons, List.map_cons, List.sum_cons]
    rw [hget k, counterSum_get hacc hc, Nat.add_assoc]

theorem count_flatMap (f : List String → List String) (l : List (List String)) (k : String) :
    (l.flatMap f).count k = (l.map fun x => (f x).count k).sum := by
  induction l with
  | nil => simp
  | cons x rest ih => simp [List.count_append, ih]

theorem counterAll_spec (pre : String → List String) (files : List (List String)) :
    CWF (counterAll pre files) ∧
    ∀ k, lookupD (counterAll pre files) k 0 = (allWords pre files).count k := by
  obtain ⟨hwf, hget⟩ := foldl_counterSum (files.map (count_one pre)) [] CWF_nil
    (by
      intro c hc
      rcases List.mem_map.mp hc with ⟨f, _, he⟩
      rw [← he]
      exact mkCounter_CWF _)
  refine ⟨hwf, fun k => ?_⟩
  rw [counterAll, hget k, allWords, count_flatMap (fileWords pre) files k]
  simp only [lookupD, pyDictGet?, Option.getD_none, List.map_map, Nat.zero_add]
  have hfun : ((fun c => (pyDictGet? c k).getD 0) ∘ count_one pre)
      = fun x => List.count k (fileWords pre x) := by
    funext x
    simpa [lookupD, count_one] using mkCounter_get (fileWords pre x) k
  rw [hfun]

/- ### Removal of special tokens from the counter (`count_parallel`, lines 120-124) -/

/-- The loop
`for tok in self.special_tokens: if tok in counter_all: special_tok_freq[tok] = counter_all[tok]; del counter_all[tok]`
started with `special_tok_freq = {}`, returning `(special_tok_freq, counter_all)`. -/
def removeSpecialTokens : List String → PyDict → PyDict → PyDict × PyDict
  | [], stf, c => (stf, c)
  | tok :: rest, stf, c =>
    if hasKey c tok then
      removeSpecialTokens rest (pyDictSet stf tok (lookupD c tok 0))
        (c.filter fun kv => kv.1 != tok)
    else
      removeSpecialTokens rest stf c

theorem CWF_filter {c : PyDict} (h : CWF c) (p : String × Nat → Bool) :
    CWF (c.filter p) :=
  ⟨List.Nodup.sublist ((List.filter_sublist _).map Prod.fst) h.1,
   fun kv hkv => h.2 kv (List.mem_filter.mp hkv).1⟩

theorem lookupD_eq_of_mem {c : PyDict} (h : CWF c) {kv : String × Nat} (hm : kv ∈ c) :
    lookupD c kv.1 0 = kv.2 := by
  rw [lookupD, pyDictGet?_of_mem_nodup h.1 hm, Option.getD_some]

theorem removeSpecialTokens_snd (sp : List String) (stf c : PyDict) :
    (removeSpecialTokens sp stf c).2 = c.filter fun kv => decide (kv.1 ∉ sp) := by
  induction sp generalizing stf c with
  | nil => simp [removeSpecialTokens]
  | cons tok rest ih =>
    rcases hk : hasKey c tok with _ | _
    · simp only [removeSpecialTokens, hk, Bool.false_eq_true, if_false, ih]
      apply List.filter_congr
      intro kv hkv
      have hne : kv.1 ≠ tok := by
        intro he
        have := hasKey_of_mem hkv
        rw [he, hk] at this
        cases this
      simp [hne]
    · simp only [removeSpecialTokens, hk, if_true, ih]
      rw [List.filter_filter]
      apply List.filter_congr
      intro kv _
      by_cases h1 : kv.1 = tok <;> by_cases h2 : kv.1 ∈ rest <;> simp [h1, h2]

theorem removeSpecialTokens_fst_notin {sp : List String} {tok : String}
    (h : tok ∉ sp) (stf c : PyDict) :
    pyDictGet? (removeSpecialTokens sp stf c).1 tok = pyDictGet? stf tok := by
  induction sp generalizing stf c with
  | nil => rfl
  | cons t rest ih =>
    have ht : tok ≠ t := fun he => h (by simp [he])
    have hr : tok ∉ rest := fun hm => h (by simp [hm])
    rcases hk : hasKey c t with _ | _
    · simp only [removeSpecialTokens, hk, Bool.false_eq_true, if_false]
      exact ih hr stf c
    · simp only [removeSpecialTokens, hk, if_true]
      rw [ih hr, pyDictSet_get_ne _ _ _ ht]

theorem removeSpecialTokens_fst_mem {sp : List String} (hnd : sp.Nodup)
    {tok : String} (hmem : tok ∈ sp) (stf c : PyDict) :
    lookupD (removeSpecialTokens sp stf c).1 tok 0 =
      (if hasKey c tok then lookupD c tok 0 else lookupD stf tok 0) := by
  induction sp generalizing stf c with
  | nil => simp at hmem
  | cons t rest ih =>
    obtain ⟨htr, hndr⟩ := List.nodup_cons.mp hnd
    by_cases he : tok = t
    · subst he
      rcases hk : hasKey c tok with _ | _
      · simp only [removeSpecialTokens, hk, Bool.false_eq_true, if_false]
        rw [lookupD, removeSpecialTokens_fst_notin htr]
        rfl
      · simp only [removeSpecialTokens, hk, if_true]
        rw [lookupD, removeSpecialTokens_fst_notin htr, pyDictSet_get_self]
        rfl
    · have hmr : tok ∈ rest := by
        rcases List.mem_cons.mp hmem with h | h
        · exact absurd h he
        · exact h
      rcases hk : hasKey c t with _ | _
      · simp only [removeSpecialTokens, hk, Bool.false_eq_true, if_false]
        exact ih hndr hmr stf c
      · simp only [removeSpecialTokens, hk, if_true]
        rw [ih hndr hmr]
        have hget : pyDictGet? (c.filter fun kv => kv.1 != t) tok = pyDictGet? c tok := by
          apply pyDictGet?_filter_of_imp
          intro kv _ hke
          rw [hke]
          simp [he]
        have hhk : hasKey (c.filter fun kv => kv.1 != t) tok = hasKey c tok := by
          rw [hasKey, hget]; rfl
        rw [hhk, lookupD, hget, lookupD,
          pyDictSet_get_ne _ _ _ (fun h' => he h')]
        rfl

/- ### WordLevelTrainer -/

/-- `WordLevelTrainer.__init__` (tokenizers.py lines 71-89), reduced to the
only observable effect of its configuration arguments: it raises
`AttributeError('use only vocab_min_freq or vocab_size')` exactly when both
`vocab_min_freq` and `vocab_size` are not `None`. -/
def wordLevelTrainer_init (vocab_size vocab_min_freq : Option Nat) : Except PyErr Unit :=
  if vocab_min_freq.isSome && vocab_size.isSome then .error .attributeError else .ok ()

/-- `self.freq = [(tok, special_tok_freq.get(tok, 0)) for tok in self.special_tokens] + counter_all`
(tokenizers.py lines 130-131), in the case where `counter_all` has been
replaced by a plain list of (token, count) pairs. -/
def buildFreq (special_tokens : List String) (special_tok_freq : PyDict)
    (counter_list : List (String × Nat)) : List (String × Nat) :=
  (special_tokens.map fun tok => (tok, lookupD special_tok_freq tok 0)) ++ counter_list

/-- `self.vocab = dict((c[0], i) for i, c in enumerate(self.freq))`
(tokenizers.py line 132). -/
def enumVocab (freq : List (String × Nat)) : PyDict :=
  mkPyDict (freq.enum.map fun ic => (ic.2.1, ic.1))

/-- `WordLevelTrainer.count_parallel` (tokenizers.py lines 110-133).  The
multiprocessing pool is commented out in the source, so counting is the
sequential comprehension `[self.count_one(fname) for fname in self.input_files]`;
an input file is modelled as its list of lines.  The result models the pair
`(self.freq, self.vocab)` the method stores (its Python return value is the
second component).  Two branches of the Python method raise:
* when `vocab_size` is not `None`, line 126 evaluates
  `counter_all.most_common(self.vocab_size)` and discards the result (a bare
  expression statement, not an assignment), so `counter_all` is still a
  `Counter` at line 130 and the concatenation `[...] + counter_all` raises
  `TypeError: can only concatenate list (not "Counter") to list`
  (`Counter` defines no `__radd__`);
* when both `vocab_size` and `vocab_min_freq` are `None`, the comprehension
  `[(key, value) for key, value in counter_all.items() if value >= self.vocab_min_freq]`
  at lines 128-129 evaluates `value >= None` on its first element and raises
  `TypeError`; it succeeds (as `[]`) only when `counter_all` is empty. -/
def count_parallel (pre : String → List String) (input_files : List (List String))
    (special_tokens : List String) (vocab_size vocab_min_freq : Option Nat) :
    Except PyErr (List (String × Nat) × PyDict) :=
  let counter_all0 := counterAll pre input_files
  let sc := removeSpecialTokens special_tokens [] counter_all0
  match vocab_size with
  | some _ => .error .typeError
  | none =>
    match vocab_min_freq with
    | some m =>
      let counter_list := sc.2.filter fun kv => decide (m ≤ kv.2)
      let freq := buildFreq special_tokens sc.1 counter_list
      .ok (freq, enumVocab freq)
    | none =>
      match sc.2 with
      | [] =>
        let freq := buildFreq special_tokens sc.1 []
        .ok (freq, enumVocab freq)
      | _ :: _ => .error .typeError

/- ### Shape of a successful `count_parallel` run -/

theorem buildFreq_shape
    {sp : List String} {w : String → Nat} {stf : PyDict} {l : List (String × Nat)}
    (hnd : sp.Nodup)
    (hstf : ∀ tok ∈ sp, lookupD stf tok 0 = w tok)
    (hclkeys : (l.map Prod.fst).Nodup)
    (hclmem : ∀ kv ∈ l, kv.1 ∉ sp ∧ kv.2 = w kv.1) :
    buildFreq sp stf l = (sp.map fun tok => (tok, w tok)) ++ l ∧
    ((buildFreq sp stf l).map Prod.fst).Nodup ∧
    enumVocab (buildFreq sp stf l)
      = (buildFreq sp stf l).enum.map fun ic => (ic.2.1, ic.1) := by
  have h1 : buildFreq sp stf l = (sp.map fun tok => (tok, w tok)) ++ l := by
    rw [buildFreq]
    congr 1
    exact List.map_congr_left fun tok htok => by rw [hstf tok htok]
  have hkeys : (buildFreq sp stf l).map Prod.fst = sp ++ l.map Prod.fst := by
    rw [h1, List.map_append, List.map_map]
    rw [show (Prod.fst ∘ fun tok : String => (tok, w tok)) = id from rfl, List.map_id]
  have h2 : ((buildFreq sp stf l).map Prod.fst).Nodup := by
    rw [hkeys]
    refine List.nodup_append.mpr ⟨hnd, hclkeys, ?_⟩
    intro a ha hb
    rcases List.mem_map.mp hb with ⟨kv, hkv, hfst⟩
    exact (hclmem kv hkv).1 (hfst ▸ ha)
  refine ⟨h1, h2, ?_⟩
  rw [enumVocab]
  apply mkPyDict_eq_self
  have hek : ((buildFreq sp stf l).enum.map fun ic => (ic.2.1, ic.1)).map Prod.fst
      = (buildFreq sp stf l).map Prod.fst := by
    rw [List.map_map, show (Prod.fst ∘ fun ic : Nat × (String × Nat) => (ic.2.1, ic.1))
          = (Prod.fst ∘ Prod.snd) from rfl, ← List.map_map, List.enum_map_snd]
  rw [hek]
  exact h2

theorem count_parallel_stf_get
    {pre : String → List String} {files : List (List String)} {sp : List String}
    (hnd : sp.Nodup) {tok : String} (htok : tok ∈ sp) :
    lookupD (removeSpecialTokens sp [] (counterAll pre files)).1 tok 0
      = (allWords pre files).count tok := by
  obtain ⟨hwf, hget⟩ := counterAll_spec pre files
  rw [removeSpecialTokens_fst_mem hnd htok]
  rcases hk : hasKey (counterAll pre files) tok with _ | _
  · have h0 : lookupD (counterAll pre files) tok 0 = 0 := by
      rcases hg : pyDictGet? (counterAll pre files) tok with _ | v
      · simp [lookupD, hg]
      · rw [hasKey, hg] at hk; cases hk
    have hc0 : (allWords pre files).count tok = 0 := by rw [← hget tok, h0]
    simp [lookupD, pyDictGet?, hc0]
  · simpa using hget tok

/-- Every successful run of `count_parallel` with pairwise-distinct special
tokens produces `freq = specials-with-their-corpus-counts ++ cl` for some list
`cl` of non-special counted tokens with distinct keys, and `vocab` enumerating
`freq` in order. -/
theorem count_parallel_ok_master
    {pre : String → List String} {files : List (List String)} {sp : List String}
    {vs mf : Option Nat} {freq : List (String × Nat)} {vocab : PyDict}
    (hnd : sp.Nodup)
    (h : count_parallel pre files sp vs mf = .ok (freq, vocab)) :
    ∃ cl : List (String × Nat),
      freq = (sp.map fun tok => (tok, (allWords pre files).count tok)) ++ cl ∧
      (freq.map Prod.fst).Nodup ∧
      (∀ kv ∈ cl, kv.1 ∉ sp ∧ kv.2 = (allWords pre files).count kv.1 ∧
        ∀ m, mf = some m → m ≤ kv.2) ∧
      vocab = freq.enum.map fun ic => (ic.2.1, ic.1) := by
  obtain ⟨hwf, hget⟩ := counterAll_spec pre files
  have hsnd := removeSpecialTokens_snd sp [] (counterAll pre files)
  have hc2wf : CWF (removeSpecialTokens sp [] (counterAll pre files)).2 := by
    rw [hsnd]; exact CWF_filter hwf _
  have hc2mem : ∀ kv ∈ (removeSpecialTokens sp [] (counterAll pre files)).2,
      kv.1 ∉ sp ∧ kv.2 = (allWords pre files).count kv.1 := by
    intro kv hkv
    rw [hsnd] at hkv
    obtain ⟨hmem, hdec⟩ := List.mem_filter.mp hkv
    refine ⟨by simpa using hdec, ?_⟩
    rw [← hget kv.1, lookupD_eq_of_mem hwf hmem]
  rcases vs with _ | n
  · rcases mf with _ | m
    · -- both None: succeeds only when the counter (after removal) is empty
      rcases hsc : (removeSpecialTokens sp [] (counterAll pre files)).2 with _ | ⟨kv0, rest⟩
      · have heq : count_parallel pre files sp none none
            = .ok (buildFreq sp (removeSpecialTokens sp [] (counterAll pre files)).1 [],
                   enumVocab (buildFreq sp
                     (removeSpecialTokens sp [] (counterAll pre files)).1 [])) := by
          simp only [count_parallel]
          rw [hsc]
        rw [heq] at h
        have hpair := Except.ok.inj h
        have hf : freq = buildFreq sp (removeSpecialTokens sp [] (counterAll pre files)).1 [] :=
          (congrArg Prod.fst hpair).symm
        have hv : vocab = enumVocab (buildFreq sp
            (removeSpecialTokens sp [] (counterAll pre files)).1 []) :=
          (congrArg Prod.snd hpair).symm
        obtain ⟨h1, h2, h3⟩ := buildFreq_shape (w := fun tok => (allWords pre files).count tok)
          (l := []) hnd (fun tok htok => count_parallel_stf_get hnd htok) (by simp) (by simp)
        refine ⟨[], by rw [hf, h1], by rw [hf]; exact h2, by simp, ?_⟩
        rw [hv, h3, hf]
      · have heq : count_parallel pre files sp none none = .error .typeError := by
          simp only [count_parallel]
          rw [hsc]
        rw [heq] at h
        cases h
    · -- vocab_min_freq = some m
      have heq : count_parallel pre files sp none (some m)
          = .ok (buildFreq sp (removeSpecialTokens sp [] (counterAll pre files)).1
                   ((removeSpecialTokens sp [] (counterAll pre files)).2.filter
                     fun kv => decide (m ≤ kv.2)),
                 enumVocab (buildFreq sp (removeSpecialTokens sp [] (counterAll pre files)).1
                   ((removeSpecialTokens sp [] (counterAll pre files)).2.filter
                     fun kv => decide (m ≤ kv.2)))) := rfl
      rw [heq] at h
      have hpair := Except.ok.inj h
      have hf : freq = buildFreq sp (removeSpecialTokens sp [] (counterAll pre files)).1
          ((removeSpecialTokens sp [] (counterAll pre files)).2.filter
            fun kv => decide (m ≤ kv.2)) :=
        (congrArg Prod.fst hpair).symm
      have hv : vocab = enumVocab (buildFreq sp
          (removeSpecialTokens sp [] (counterAll pre files)).1
          ((removeSpecialTokens sp [] (counterAll pre files)).2.filter
            fun kv => decide (m ≤ kv.2))) :=
        (congrArg Prod.snd hpair).symm
      have hclwf : CWF ((removeSpecialTokens sp [] (counterAll pre files)).2.filter
          fun kv => decide (m ≤ kv.2)) := CWF_filter hc2wf _
      have hclmem : ∀ kv ∈ (removeSpecialTokens sp [] (counterAll pre files)).2.filter
          (fun kv => decide (m ≤ kv.2)),
          kv.1 ∉ sp ∧ kv.2 = (allWords pre files).count kv.1 := by
        intro kv hkv
        exact hc2mem kv (List.mem_filter.mp hkv).1
      obtain ⟨h1, h2, h3⟩ := buildFreq_shape (w := fun tok => (allWords pre files).count tok)
        hnd (fun tok htok => count_parallel_stf_get hnd htok) hclwf.1 hclmem
      refine ⟨(removeSpecialTokens sp [] (counterAll pre files)).2.filter
          (fun kv => decide (m ≤ kv.2)), by rw [hf, h1], by rw [hf]; exact h2, ?_, ?_⟩
      · intro kv hkv
        obtain ⟨ha, hb⟩ := hclmem kv hkv
        refine ⟨ha, hb, ?_⟩
        intro m' hm'
        obtain rfl : m' = m := by injection hm' with h'; rw [h']
        have := (List.mem_filter.mp hkv).2
        simpa using this
      · rw [hv, h3, hf]
  · -- vocab_size supplied: line 130 raises TypeError (most_common result discarded)
    cases h

theorem pyDictGet?_enumFrom (freq : List (String × Nat)) :
    ∀ (hnd : (freq.map Prod.fst).Nodup) (n j : Nat) (hj : j < freq.length),
      pyDictGet? ((freq.enumFrom n).map fun ic => (ic.2.1, ic.1)) (freq.get ⟨j, hj⟩).1
        = some (n + j) := by
  induction freq with
  | nil =>
    intro _ n j hj
    simp at hj
  | cons kv rest ih =>
    intro hnd n j hj
    rcases j with _ | j
    · simp [List.enumFrom, pyDictGet?]
    · have hjr : j < rest.length := by simpa using hj
      have hk : ¬ kv.1 = (rest.get ⟨j, hjr⟩).1 := by
        intro he
        have hmem : (rest.get ⟨j, hjr⟩).1 ∈ rest.map Prod.fst :=
          List.mem_map_of_mem Prod.fst (List.get_mem rest j hjr)
        rw [← he] at hmem
        exact (List.nodup_cons.mp hnd).1 hmem
      have hgc : ((kv :: rest).get ⟨j + 1, hj⟩) = rest.get ⟨j, hjr⟩ := rfl
      rw [hgc]
      simp only [List.enumFrom, List.map_cons, pyDictGet?]
      rw [if_neg hk, ih (List.nodup_cons.mp hnd).2 (n + 1) j hjr]
      congr 1
      omega

theorem enumVocabList_keys (freq : List (String × Nat)) :
    (freq.enum.map fun ic => (ic.2.1, ic.1)).map Prod.fst = freq.map Prod.fst := by
  rw [List.map_map, show (Prod.fst ∘ fun ic : Nat × (String × Nat) => (ic.2.1, ic.1))
        = (Prod.fst ∘ Prod.snd) from rfl, ← List.map_map, List.enum_map_snd]

/-- In every successful run, the vocabulary maps the `j`-th declared special
token to index `j` (shared workhorse for the claims about special tokens). -/
theorem vocab_get_special
    {pre : String → List String} {files : List (List String)} {sp : List String}
    {vs mf : Option Nat} {freq : List (String × Nat)} {vocab : PyDict}
    (hnd : sp.Nodup)
    (h : count_parallel pre files sp vs mf = .ok (freq, vocab)) :
    ∀ j (hj : j < sp.length), pyDictGet? vocab (sp.get ⟨j, hj⟩) = some j := by
  obtain ⟨cl, h1, h2, h3, h4⟩ := count_parallel_ok_master hnd h
  intro j hj
  subst h1
  have hjf : j < ((sp.map fun tok => (tok, (allWords pre files).count tok)) ++ cl).length := by
    simp only [List.length_append, List.length_map]
    omega
  have hjm : j < (sp.map fun tok => (tok, (allWords pre files).count tok)).length := by
    simpa using hj
  have hkey : (((sp.map fun tok => (tok, (allWords pre files).count tok)) ++ cl).get
      ⟨j, hjf⟩).1 = sp.get ⟨j, hj⟩ := by
    simp only [List.get_eq_getElem]
    rw [List.getElem_append_left hjm]
    simp
  rw [h4, ← hkey]
  have := pyDictGet?_enumFrom _ h2 0 j hjf
  simpa using this

/- ### Claims about WordLevelTrainer -/

/-- C1 (code bug): the claim says that with `vocab_size = n` (and
`vocab_min_freq = None`) `count_parallel` truncates the counted token list to
the `n` most frequent non-special tokens before prepending the special tokens.
In the source, line 126 `counter_all.most_common(self.vocab_size)` is a bare
expression statement whose result is discarded, so no truncation happens, and
line 130 then concatenates a Python `list` with the still-`Counter`
`counter_all`, raising `TypeError`.  This theorem evaluates the embedded code
at the failing input (one file with lines "a", "a", "b", special tokens
`['<s>']`, `vocab_size = 2`, identity pre-tokenizer): the method raises
`TypeError` instead of returning a truncated vocabulary. -/
theorem c1_vocab_size_branch_type_error :
    count_parallel (fun s => [s]) [["a", "a", "b"]] ["<s>"] (some 2) none
      = .error .typeError := rfl

/-- C2: whenever `count_parallel` returns a vocabulary, the `k` (pairwise
distinct) declared special tokens occupy positions `0..k-1` of `self.freq` in
declared order, each recorded with its true observed corpus frequency (zero if
absent from the corpus), and the returned vocabulary maps the `j`-th special
token to index `j`, regardless of observed frequencies. -/
theorem c2_special_tokens_first
    (pre : String → List String) (files : List (List String)) (sp : List String)
    (vs mf : Option Nat) (freq : List (String × Nat)) (vocab : PyDict)
    (hnd : sp.Nodup)
    (h : count_parallel pre files sp vs mf = .ok (freq, vocab)) :
    freq.take sp.length = (sp.map fun tok => (tok, (allWords pre files).count tok)) ∧
    ∀ j (hj : j < sp.length), pyDictGet? vocab (sp.get ⟨j, hj⟩) = some j := by
  obtain ⟨cl, h1, h2, h3, h4⟩ := count_parallel_ok_master hnd h
  refine ⟨?_, vocab_get_special hnd h⟩
  rw [h1, show sp.length
      = (sp.map fun tok => (tok, (allWords pre files).count tok)).length by simp,
    List.take_left]

/-- C2 witness: concrete run with special tokens `['<s>', '<pad>']`, one file
with the single line "x" and `vocab_min_freq = 1`; the vocabulary maps
`'<pad>'` to index 1. -/
theorem c2_special_tokens_first_witness :
    pyDictGet? [("<s>", 0), ("<pad>", 1), ("x", 2)] "<pad>" = some 1 :=
  (c2_special_tokens_first (fun s => [s]) [["x"]] ["<s>", "<pad>"] none (some 1)
    [("<s>", 0), ("<pad>", 0), ("x", 1)] [("<s>", 0), ("<pad>", 1), ("x", 2)]
    (by decide) rfl).2 1 (by decide)

/-- C3: constructing `WordLevelTrainer` with both `vocab_size` and
`vocab_min_freq` not `None` raises `AttributeError`; with at most one of the
two set, this error is not raised. -/
theorem c3_init_attribute_error (vocab_size vocab_min_freq : Option Nat) :
    wordLevelTrainer_init vocab_size vocab_min_freq = .error .attributeError
      ↔ (vocab_size ≠ none ∧ vocab_min_freq ≠ none) := by
  rcases vocab_size with _ | n <;> rcases vocab_min_freq with _ | m <;>
    simp [wordLevelTrainer_init]

/-- C3 witness: the theorem applied at `vocab_size = some 5000`,
`vocab_min_freq = some 2`. -/
theorem c3_init_attribute_error_witness :
    wordLevelTrainer_init (some 5000) (some 2) = .error .attributeError :=
  (c3_init_attribute_error (some 5000) (some 2)).mpr (by simp)

/-- C4: with `vocab_min_freq = m` supplied, every non-special token whose
total corpus count is below `m` is absent from the returned vocabulary, while
every declared special token is present regardless of its count (the special
tokens having been removed from the counter before the cutoff is applied). -/
theorem c4_min_freq_cutoff
    (pre : String → List String) (files : List (List String)) (sp : List String)
    (vs : Option Nat) (m : Nat) (freq : List (String × Nat)) (vocab : PyDict)
    (hnd : sp.Nodup)
    (h : count_parallel pre files sp vs (some m) = .ok (freq, vocab)) :
    (∀ w, w ∉ sp → (allWords pre files).count w < m → pyDictGet? vocab w = none) ∧
    (∀ tok ∈ sp, ∃ j, pyDictGet? vocab tok = some j) := by
  obtain ⟨cl, h1, h2, h3, h4⟩ := count_parallel_ok_master hnd h
  constructor
  · intro w hw hcount
    rw [h4]
    apply pyDictGet?_eq_none_of_forall_ne
    intro kv hkv
    rcases List.mem_map.mp hkv with ⟨ic, hic, he⟩
    have hmem : ic.2 ∈ freq := by
      have hsnd := List.enum_map_snd freq
      rw [← hsnd]
      exact List.mem_map_of_mem Prod.snd hic
    rw [← he]
    show ic.2.1 ≠ w
    rw [h1] at hmem
    rcases List.mem_append.mp hmem with hmem | hmem
    · rcases List.mem_map.mp hmem with ⟨tok, htok, he2⟩
      rw [← he2]
      intro he3
      exact hw (he3 ▸ htok)
    · obtain ⟨hnsp, hval, hmf⟩ := h3 ic.2 hmem
      intro he3
      have hle := hmf m rfl
      rw [hval, he3] at hle
      omega
  · intro tok htok
    rcases List.mem_iff_get.mp htok with ⟨⟨j, hj⟩, hje⟩
    exact ⟨j, by rw [← hje]; exact vocab_get_special hnd h j hj⟩

/-- C4 witness: corpus with lines "<s>", "b", "b" (one line per file), special
tokens `['<s>']`, cutoff `m = 2`.  The token "a" (count 0 < 2) is absent from
the returned vocabulary. -/
theorem c4_min_freq_cutoff_witness :
    pyDictGet? [("<s>", 0), ("b", 1)] "a" = none :=
  (c4_min_freq_cutoff (fun s => [s]) [["<s>"], ["b"], ["b"]] ["<s>"] none 2
    [("<s>", 1), ("b", 2)] [("<s>", 0), ("b", 1)] (by decide) rfl).1 "a"
    (by decide) (by decide)

/-- C6 counterexample: the claim quantifies over EVERY sequence of declared
special tokens.  With the duplicated sequence `['a', 'a']`, an empty corpus
and `vocab_min_freq = 1`, `count_parallel` returns the vocabulary
`{'a': 1}`: a mapping with one entry whose set of index values is `{1}`, not
the dense range `{0}`. -/
theorem c6_counterexample :
    count_parallel (fun s => [s]) [] ["a", "a"] none (some 1)
      = .ok ([("a", 0), ("a", 0)], [("a", 1)]) ∧
    ([("a", 1)] : PyDict).map Prod.snd ≠ List.range ([("a", 1)] : PyDict).length :=
  ⟨rfl, by decide⟩

/-- C6 (amended): for every corpus and every sequence of PAIRWISE DISTINCT
declared special tokens, whenever `count_parallel` returns a vocabulary
mapping, the list of its index values is exactly `0..n-1` in order (`n` the
number of entries, so no gaps and no duplicates) and the special tokens occupy
the prefix of the mapping. -/
theorem c6_dense_indices
    (pre : String → List String) (files : List (List String)) (sp : List String)
    (vs mf : Option Nat) (freq : List (String × Nat)) (vocab : PyDict)
    (hnd : sp.Nodup)
    (h : count_parallel pre files sp vs mf = .ok (freq, vocab)) :
    vocab.map Prod.snd = List.range vocab.length ∧
    (vocab.take sp.length).map Prod.fst = sp := by
  obtain ⟨cl, h1, h2, h3, h4⟩ := count_parallel_ok_master hnd h
  constructor
  · rw [h4, List.map_map,
      show (Prod.snd ∘ fun ic : Nat × (String × Nat) => (ic.2.1, ic.1)) = Prod.fst from rfl,
      List.enum_map_fst]
    congr 1
    simp [h4, List.enum_length]
  · rw [h4, List.map_take, enumVocabList_keys, h1, List.map_append, List.map_map,
      show (Prod.fst ∘ fun tok : String => (tok, (allWords pre files).count tok)) = id from rfl,
      List.map_id, List.take_left]

/-- C6 witness: concrete run with the distinct special-token list `['<s>']`,
one file with line "x" and `vocab_min_freq = 1`: the returned vocabulary
`{'<s>': 0, 'x': 1}` has index values `[0, 1] = range 2` and `'<s>'` in its
prefix. -/
theorem c6_dense_indices_witness :
    ([("<s>", 0), ("x", 1)] : PyDict).map Prod.snd
        = List.range ([("<s>", 0), ("x", 1)] : PyDict).length ∧
    (([("<s>", 0), ("x", 1)] : PyDict).take 1).map Prod.fst = ["<s>"] :=
  c6_dense_indices (fun s => [s]) [["x"]] ["<s>"] none (some 1)
    [("<s>", 0), ("x", 1)] [("<s>", 0), ("x", 1)] (by decide) rfl

/-- C7: determinism.  The embedded `count_parallel` is a pure function of the
pre-tokenize function, the input files and the configuration (the
multiprocessing pool is commented out in the source; counting is the
sequential comprehension over `self.input_files`), so two runs over identical
input files produce identical `(freq, vocab)` results — the same tokens mapped
to the same indices. -/
theorem c7_deterministic
    (pre : String → List String) (files1 files2 : List (List String))
    (sp : List String) (vs mf : Option Nat)
    (h : files1 = files2) :
    count_parallel pre files1 sp vs mf = count_parallel pre files2 sp vs mf := by
  rw [h]

/-- C7 witness: the theorem applied to two identical concrete corpora. -/
theorem c7_deterministic_witness :
    count_parallel (fun s => [s]) [["x"]] ["<s>"] none (some 1)
      = count_parallel (fun s => [s]) [["x"]] ["<s>"] none (some 1) :=
  c7_deterministic (fun s => [s]) [["x"]] [["x"]] ["<s>"] none (some 1) rfl

/- ### seq_cls_finetune.py: the tokenizer_type check -/

/-- `list(TOKENIZER_CLS.keys())` in seq_cls_finetune.py (lines 35-41). -/
def TOKENIZER_CLS_KEYS : List String := ["spm", "newmm", "syllable", "sefr"]

/-- seq_cls_finetune.py lines 187-188:
`if args.tokenizer_type not in list(TOKENIZER_CLS.keys()): raise f"The tokenizer type ... is not supported"`.
In Python 3, `raise` applied to a `str` raises
`TypeError: exceptions must derive from BaseException`, so an unsupported
tokenizer type terminates the script with a `TypeError` (not with the
f-string, and not with a `ValueError` or a `LookupError`). -/
def tokenizer_type_check (tokenizer_type : String) : Except PyErr Unit :=
  if tokenizer_type ∉ TOKENIZER_CLS_KEYS then .error .typeError else .ok ()

/-- Whether a Python exception is a value error or a lookup error
(`KeyError`/`IndexError` derive from `LookupError`). -/
def isValueOrLookupError : PyErr → Bool
  | .valueError => true
  | .keyError => true
  | _ => false

/-- C5 counterexample: at the unsupported tokenizer type "attacut" the script
does raise, but the raised exception is a `TypeError` — Python 3 rejects
`raise` applied to the plain f-string at line 188 — which is neither a value
error nor a lookup error, contradicting the claim as stated. -/
theorem c5_counterexample :
    tokenizer_type_check "attacut" = .error .typeError ∧
    isValueOrLookupError .typeError = false :=
  ⟨rfl, rfl⟩

/-- C5 (amended): if `tokenizer_type` is not one of the supported keys
('spm', 'newmm', 'syllable', 'sefr') the script raises an error — a
`TypeError` (because line 188 raises a plain string, which Python 3 rejects
with `TypeError: exceptions must derive from BaseException`), not a value or
lookup error; a supported key passes the check without raising. -/
theorem c5_unsupported_tokenizer_type (t : String) :
    (t ∉ TOKENIZER_CLS_KEYS → tokenizer_type_check t = .error .typeError) ∧
    (t ∈ TOKENIZER_CLS_KEYS → tokenizer_type_check t = .ok ()) := by
  constructor <;> intro h <;> simp [tokenizer_type_check, h]

/-- C5 witness: the amended theorem applied at the unsupported type
"badtype". -/
theorem c5_unsupported_tokenizer_type_witness :
    tokenizer_type_check "badtype" = .error .typeError :=
  (c5_unsupported_tokenizer_type "badtype").1 (by decide)

/- ### CustomPreTokenizer.split (tokenizers.py lines 49-64) -/

/-- The loop `total_i += len(word); break_i.append(total_i)` over the words
returned by `pre_tokenize_func`: the running totals of the word lengths
(Python `len` on a string counts code points). -/
def breakIndicesAux : List Nat → Nat → List Nat
  | [], _ => []
  | l :: rest, total => (total + l) :: breakIndicesAux rest (total + l)

/-- The list `break_i` computed by `CustomPreTokenizer.split` for input `s`. -/
def breakIndices (pre : String → List String) (s : String) : List Nat :=
  breakIndicesAux ((pre s).map String.length) 0

/-- One iteration of the loop
`for (i, char) in enumerate(str(normalized_string)): if i in break_i: splits.append(normalized_string[last:i]); last = i`
acting on the state `(splits, last)`.  The slice `normalized_string[last:i]`
is `(cs.drop last).take (i - last)` at the level of code points. -/
def splitStep (breaks : List Nat) (cs : List Char) (st : List (List Char) × Nat)
    (i : Nat) : List (List Char) × Nat :=
  if i ∈ breaks then (st.1 ++ [(cs.drop st.2).take (i - st.2)], i) else st

/-- The body of `CustomPreTokenizer.split` on the code points of the input:
run the loop over every character index, then
`splits.append(normalized_string[last:])`. -/
def splitChars (breaks : List Nat) (cs : List Char) : List (List Char) :=
  let st := (List.range cs.length).foldl (splitStep breaks cs) ([], 0)
  st.1 ++ [cs.drop st.2]

/-- `CustomPreTokenizer.split` (tokenizers.py lines 49-64); a
`NormalizedString` is modelled by its string value. -/
def customPreTokenizer_split (pre : String → List String) (s : String) : List String :=
  (splitChars (breakIndices pre s) s.data).map fun cs => String.mk cs

theorem splitStep_invariant (breaks : List Nat) (cs : List Char) :
    ∀ (n a : Nat) (st : List (List Char) × Nat),
      st.2 ≤ a → st.1.flatten = cs.take st.2 →
      ((List.range' a n).foldl (splitStep breaks cs) st).1.flatten
          = cs.take ((List.range' a n).foldl (splitStep breaks cs) st).2 ∧
      ((List.range' a n).foldl (splitStep breaks cs) st).2 ≤ a + n := by
  intro n
  induction n with
  | zero =>
    intro a st h1 h2
    exact ⟨h2, by simpa using h1⟩
  | succ n ihn =>
    intro a st h1 h2
    rw [List.range'_succ]
    simp only [List.foldl_cons]
    by_cases hmem : a ∈ breaks
    · have hst : (splitStep breaks cs st a)
          = (st.1 ++ [(cs.drop st.2).take (a - st.2)], a) := by
        simp [splitStep, hmem]
      rw [hst]
      have hinv : (st.1 ++ [(cs.drop st.2).take (a - st.2)]).flatten = cs.take a := by
        rw [List.flatten_append, h2]
        simp only [List.flatten_cons, List.flatten_nil, List.append_nil]
        rw [show a = st.2 + (a - st.2) by omega, List.take_add]
        simp
      obtain ⟨ha, hb⟩ := ihn (a + 1) (st.1 ++ [(cs.drop st.2).take (a - st.2)], a)
        (Nat.le_succ a) hinv
      exact ⟨ha, by omega⟩
    · have hst : splitStep breaks cs st a = st := by simp [splitStep, hmem]
      rw [hst]
      obtain ⟨ha, hb⟩ := ihn (a + 1) st (by omega) h2
      exact ⟨ha, by omega⟩

theorem splitChars_flatten (breaks : List Nat) (cs : List Char) :
    (splitChars breaks cs).flatten = cs := by
  obtain ⟨h1, _⟩ := splitStep_invariant breaks cs cs.length 0 ([], 0) (by simp) (by simp)
  rw [← List.range_eq_range'] at h1
  simp only [splitChars, List.flatten_append, h1, List.flatten_cons, List.flatten_nil,
    List.append_nil]
  exact List.take_append_drop _ cs

theorem string_join_map_mk (css : List (List Char)) :
    String.join (css.map fun cs => String.mk cs) = String.mk css.flatten := by
  suffices h : ∀ (css : List (List Char)) (acc : String),
      (css.map fun cs => String.mk cs).foldl (fun r s => r ++ s) acc
        = String.mk (acc.data ++ css.flatten) by
    rw [String.join, h css ""]
    rfl
  intro css
  induction css with
  | nil =>
    intro acc
    simp only [List.map_nil, List.foldl_nil, List.flatten_nil, List.append_nil]
  | cons cs rest ih =>
    intro acc
    simp only [List.map_cons, List.foldl_cons, List.flatten_cons]
    rw [ih (acc ++ String.mk cs)]
    congr 1
    rw [String.data_append]
    simp

/-- C8: for every `pre_tokenize_func` (whatever word list it returns) and
every input string, the concatenation of the segments returned by
`CustomPreTokenizer.split` equals the original string: the boundary-splitting
step never loses, duplicates or reorders characters. -/
theorem c8_split_concat (pre : String → List String) (s : String) :
    String.join (customPreTokenizer_split pre s) = s := by
  rw [customPreTokenizer_split, string_join_map_mk, splitChars_flatten]

/- ### ThaiWordsNewmmTokenizer (tokenizers.py lines 366-546) -/

/-- `ThaiWordsNewmmTokenizer._convert_token_to_id` (tokenizers.py lines
491-497): look the token up with the word-level model's `token_to_id`
(the model's vocabulary lookup, `None` when absent) and return
`self.unk_token_id` when the lookup yields `None`. -/
def thaiWordsNewmm_convert_token_to_id (model_vocab : PyDict) (unk_token_id : Nat)
    (token : String) : Nat :=
  match pyDictGet? model_vocab token with
  | none => unk_token_id
  | some i => i

/-- C9: `_convert_token_to_id` is total on token strings: a token present in
the word-level vocabulary maps to its vocabulary index, and every absent token
maps to `unk_token_id` — never an exception and never `None`. -/
theorem c9_convert_token_total (model_vocab : PyDict) (unk_token_id : Nat)
    (token : String) :
    (∀ i, pyDictGet? model_vocab token = some i →
      thaiWordsNewmm_convert_token_to_id model_vocab unk_token_id token = i) ∧
    (pyDictGet? model_vocab token = none →
      thaiWordsNewmm_convert_token_to_id model_vocab unk_token_id token = unk_token_id) := by
  constructor
  · intro i h
    simp [thaiWordsNewmm_convert_token_to_id, h]
  · intro h
    simp [thaiWordsNewmm_convert_token_to_id, h]

/-- C9 witness: with word-level vocabulary `{"w": 7}` and `unk_token_id = 3`,
the present token "w" maps to 7 and the absent token "z" maps to 3. -/
theorem c9_convert_token_total_witness :
    thaiWordsNewmm_convert_token_to_id [("w", 7)] 3 "w" = 7 ∧
    thaiWordsNewmm_convert_token_to_id [("w", 7)] 3 "z" = 3 :=
  ⟨(c9_convert_token_total [("w", 7)] 3 "w").1 7 rfl,
   (c9_convert_token_total [("w", 7)] 3 "z").2 rfl⟩

/-- `ThaiWordsNewmmTokenizer.build_inputs_with_special_tokens` (tokenizers.py
lines 401-425): `<s> X </s>` for one sequence, `<s> A </s></s> B </s>` for a
pair. -/
def build_inputs_with_special_tokens (cls_token_id sep_token_id : Nat)
    (token_ids_0 : List Nat) (token_ids_1 : Option (List Nat)) : List Nat :=
  match token_ids_1 with
  | none => [cls_token_id] ++ token_ids_0 ++ [sep_token_id]
  | some ids1 => [cls_token_id] ++ token_ids_0 ++ [sep_token_id]
      ++ [sep_token_id] ++ ids1 ++ [sep_token_id]

/-- `ThaiWordsNewmmTokenizer.get_special_tokens_mask` (tokenizers.py lines
427-455).  With `already_has_special_tokens=True` and a second sequence the
method raises `ValueError`. -/
def get_special_tokens_mask (sep_token_id cls_token_id : Nat)
    (token_ids_0 : List Nat) (token_ids_1 : Option (List Nat))
    (already_has_special_tokens : Bool) : Except PyErr (List Nat) :=
  if already_has_special_tokens then
    match token_ids_1 with
    | some _ => .error .valueError
    | none => .ok (token_ids_0.map fun x =>
        if x = sep_token_id ∨ x = cls_token_id then 1 else 0)
  else
    match token_ids_1 with
    | none => .ok ([1] ++ List.replicate token_ids_0.length 0 ++ [1])
    | some ids1 => .ok ([1] ++ List.replicate token_ids_0.length 0 ++ [1, 1]
        ++ List.replicate ids1.length 0 ++ [1])

/-- `ThaiWordsNewmmTokenizer.create_token_type_ids_from_sequences`
(tokenizers.py lines 457-478): `len(cls + token_ids_0 + sep) * [0]`,
resp. `len(cls + token_ids_0 + sep + sep + token_ids_1 + sep) * [0]`. -/
def create_token_type_ids_from_sequences (cls_token_id sep_token_id : Nat)
    (token_ids_0 : List Nat) (token_ids_1 : Option (List Nat)) : List Nat :=
  match token_ids_1 with
  | none => List.replicate ([cls_token_id] ++ token_ids_0 ++ [sep_token_id]).length 0
  | some ids1 => List.replicate ([cls_token_id] ++ token_ids_0 ++ [sep_token_id]
      ++ [sep_token_id] ++ ids1 ++ [sep_token_id]).length 0

/-- C10: for every id list and optional second list,
`create_token_type_ids_from_sequences` is the all-zero list whose length is
that of `build_inputs_with_special_tokens`, and `get_special_tokens_mask` with
`already_has_special_tokens = False` is the 0/1 list of that same length with
1 exactly at the positions where `build_inputs_with_special_tokens` inserts
the cls and sep tokens: it equals `build_inputs_with_special_tokens` applied
with both special ids replaced by 1 and every sequence token replaced by 0. -/
theorem c10_special_token_layout (cls_token_id sep_token_id : Nat)
    (token_ids_0 : List Nat) (token_ids_1 : Option (List Nat)) :
    create_token_type_ids_from_sequences cls_token_id sep_token_id token_ids_0 token_ids_1
      = List.replicate (build_inputs_with_special_tokens cls_token_id sep_token_id
          token_ids_0 token_ids_1).length 0 ∧
    get_special_tokens_mask sep_token_id cls_token_id token_ids_0 token_ids_1 false
      = .ok (build_inputs_with_special_tokens 1 1
          (List.replicate token_ids_0.length 0)
          (token_ids_1.map fun ids1 => List.replicate ids1.length 0)) := by
  rcases token_ids_1 with _ | ids1
  · exact ⟨rfl, by simp [get_special_tokens_mask, build_inputs_with_special_tokens]⟩
  · refine ⟨rfl, ?_⟩
    simp [get_special_tokens_mask, build_inputs_with_special_tokens]

end Thai2Transformers
